import Mathlib

/-!
Verification of the LaTeX preprocessor (`__main__.py`).

Strings are modelled as `List Char`.  The two regular expressions of the
program (`\\input{(.*)}` and `\\includegraphics(?P<size>.*){(?:.*/)?(?P<path>.*)}`)
use `.`, which in Python does not match a newline, and all their literal
characters are newline-free; hence no regex match ever spans a line break.
Moreover both patterns end in a greedy `.*` followed by a closing brace, so a
successful match always extends to the last closing brace of its line, and
therefore each line contains at most one match.  The definitions below
implement exactly this semantics of the CPython `re` engine (leftmost match,
greedy capture up to the last closing brace of the line).
-/

/-- Text, modelled as a list of characters. -/
abbrev Txt := List Char

/-- An abstract read-only file system: maps a path to the file's content,
`none` when the path does not exist or is not a regular file (in which case
`get_data_from_file`'s assertion fires). -/
abbrev FS := Txt → Option Txt

deriving instance DecidableEq for Except

/-- The character `{`. -/
def lbrace : Char := Char.ofNat 123

/-- The character `}`. -/
def rbrace : Char := Char.ofNat 125

/-- Split a list around the LAST occurrence of the character `ch`:
`splitLast ch s = some (b, a)` with `s = b ++ ch :: a` and `ch ∉ a`;
`none` when `ch` does not occur.  This is how a greedy `.*` followed by a
literal `ch` divides the scanned text. -/
def splitLast (ch : Char) : Txt → Option (Txt × Txt)
  | [] => none
  | c :: cs =>
    match splitLast ch cs with
    | some (b, a) => some (c :: b, a)
    | none => if c = ch then some ([], cs) else none

/-- Split a list around the FIRST (leftmost) occurrence of the token `tok`:
`splitFirstTok tok s = some (p, a)` with `s = p ++ tok ++ a` and no
occurrence of `tok` beginning inside `p`.  This is the regex engine's
leftmost-match rule for a literal token. -/
def splitFirstTok (tok : Txt) : Txt → Option (Txt × Txt)
  | [] => if tok.isPrefixOf [] then some ([], []) else none
  | c :: cs =>
    if tok.isPrefixOf (c :: cs) then some ([], (c :: cs).drop tok.length)
    else
      match splitFirstTok tok cs with
      | some (p, a) => some (c :: p, a)
      | none => none

/-- The literal token `\input{` of the pattern `\\input{(.*)}`. -/
def inputTok : Txt := ['\\', 'i', 'n', 'p', 'u', 't', lbrace]

/-- `c` is one of the characters a `.` can match (anything but a newline). -/
def notNL (c : Char) : Bool := c != '\n'

/-- Attempt a regex match of `\\input{(.*)}` at the CURRENT position:
the token `\input{` must be present, and the greedy `(.*)` (which cannot
cross a newline) must be closed by a `}`; the capture extends to the LAST
`}` on the line.  Returns `some (capture, rest-after-match)`. -/
def tryMatch (s : Txt) : Option (Txt × Txt) :=
  if inputTok.isPrefixOf s then
    let rest := s.drop inputTok.length
    let line := rest.takeWhile notNL
    match splitLast rbrace line with
    | some (before, _) => some (before, rest.drop (before.length + 1))
    | none => none
  else none

/-- Leftmost match of `\\input{(.*)}` in `s`: returns
`some (segment, capture, rest)` where `segment` is the text before the
match, or `none` when the pattern does not occur.  (The `re` engine tries
each start position from the left; on failure it advances one character.) -/
def firstInput : Txt → Option (Txt × Txt × Txt)
  | [] => none
  | c :: cs =>
    match tryMatch (c :: cs) with
    | some (cap, rest) => some ([], cap, rest)
    | none =>
      match firstInput cs with
      | some (seg, cap, rest) => some (c :: seg, cap, rest)
      | none => none

/-- Scan for all (non-overlapping, left-to-right) matches, with fuel.
Every successful match consumes at least the 8 characters `\input{` + `}`,
so at most `s.length / 8` matches exist: fuel `s.length` (as used in
`find_inputs_in_file`) can never be exhausted before `firstInput` returns
`none`. -/
def findInputsAux : Nat → Txt → List Txt × List Txt
  | 0, s => ([], [s])
  | n + 1, s =>
    match firstInput s with
    | none => ([], [s])
    | some (seg, cap, rest) =>
      let r := findInputsAux n rest
      (cap :: r.1, seg :: r.2)

/-- `find_inputs_in_file` from the source: `re.findall("\\\\input{(.*)}", s)`
paired with `re.split("\\\\input{.*}", s)` — the list of captures and the
list of the pieces of `s` between the matches (one more piece than
captures). -/
def find_inputs_in_file (s : Txt) : List Txt × List Txt :=
  findInputsAux s.length s

/-- `find_amount_of_inputs` from the source: the number of captures. -/
def find_amount_of_inputs (s : Txt) : Nat :=
  (find_inputs_in_file s).1.length

/-- The splicing loop body of `parse_file`: interleave the split segments
with the contents of the referenced files
(`output += splitted_file[i]; output += get_data_from_file(project/input_i)`,
then the trailing segment).  A reference whose path is missing from the
file system makes `get_data_from_file`'s assertion fail: modelled as
`Except.error ()`. -/
def spliceList (fs : FS) : List Txt → List Txt → Except Unit Txt
  | [], [] => .ok []
  | [], seg :: _ => .ok seg
  | _ :: _, [] => .error ()
  | cap :: caps, seg :: segs =>
    match fs cap with
    | none => .error ()
    | some d =>
      match spliceList fs caps segs with
      | .error e => .error e
      | .ok t => .ok (seg ++ d ++ t)

/-- The `while find_amount_of_inputs(return_content) > 0` loop of
`parse_file`, with fuel counting scan-and-splice passes.  `none` means the
fuel was exhausted with the loop still running (in Python: the loop has not
terminated within that many passes); `some (.error ())` means an assertion
aborted the run; `some (.ok c)` is normal termination. -/
def parseLoop (fs : FS) : Nat → Txt → Option (Except Unit Txt)
  | 0, c => if find_amount_of_inputs c = 0 then some (.ok c) else none
  | n + 1, c =>
    if find_amount_of_inputs c = 0 then some (.ok c)
    else
      match spliceList fs (find_inputs_in_file c).1 (find_inputs_in_file c).2 with
      | .error e => some (.error e)
      | .ok c' => parseLoop fs n c'

/-- `parse_file` from the source: assert the main file exists, read it, and
run the scan-and-splice loop. -/
def parse_file (fs : FS) (fuel : Nat) (path : Txt) : Option (Except Unit Txt) :=
  match fs path with
  | none => some (.error ())
  | some content => parseLoop fs fuel content

/-- The literal token `\includegraphics` (16 characters) shared by the two
graphics patterns. -/
def graphicsTok : Txt :=
  ['\\', 'i', 'n', 'c', 'l', 'u', 'd', 'e', 'g', 'r', 'a', 'p', 'h', 'i', 'c', 's']

/-- Effect of the `(?:.*/)?` group of `remove_path_graphics`'s pattern on
the captured region: the greedy optional group eats through the last `/`,
so the `path` group is what follows the last `/` (the whole region when no
`/` occurs). -/
def flattenTok (region : Txt) : Txt :=
  match splitLast '/' region with
  | some (_, p) => p
  | none => region

/-- Decomposition of one line by the graphics patterns
`\\includegraphics(?:.*){(.*)}` / `\\includegraphics(?P<size>.*){(?:.*/)?(?P<path>.*)}`:
the match starts at the leftmost `\includegraphics`, the final `}` is the
last `}` of the line (greedy `(.*)}`), and the opening `{` is the last `{`
before it (greedy `(?P<size>.*){` / `(?:.*){`).  Returns
`some (pre, size, region, tail)` with
`line = pre ++ \includegraphics ++ size ++ { ++ region ++ } ++ tail`,
or `none` when the pattern does not match the line.  (If the leftmost
occurrence of the literal has no `{`-`}` pair after it, no later occurrence
has one either, so the line has no match at all.) -/
def lineGraphicsSplit (l : Txt) : Option (Txt × Txt × Txt × Txt) :=
  match splitFirstTok graphicsTok l with
  | none => none
  | some (pre, after) =>
    match splitLast rbrace after with
    | none => none
    | some (beforeQ, t) =>
      match splitLast lbrace beforeQ with
      | none => none
      | some (size, region) => some (pre, size, region, t)

/-- Rewrite of one line by
`re.sub(r"\\includegraphics(?P<size>.*){(?:.*/)?(?P<path>.*)}", r"\\includegraphics\g<size>{\g<path>}", ·)`:
at most one match per line, replaced by the literal, the verbatim `size`
group, and the `path` group in fresh braces. -/
def rewriteLine (l : Txt) : Txt :=
  match lineGraphicsSplit l with
  | none => l
  | some (pre, size, region, t) =>
    pre ++ graphicsTok ++ size ++ lbrace :: (flattenTok region ++ rbrace :: t)

/-- Split text into its lines (the pieces between `\n` characters; `n`
newlines give `n + 1` lines). -/
def splitLines : Txt → List Txt
  | [] => [[]]
  | c :: cs =>
    if c = '\n' then [] :: splitLines cs
    else
      match splitLines cs with
      | l :: ls => (c :: l) :: ls
      | [] => [[c]]

/-- Rejoin lines with `\n` (inverse of `splitLines`). -/
def joinLines : List Txt → Txt
  | [] => []
  | [l] => l
  | l :: l' :: ls => l ++ '\n' :: joinLines (l' :: ls)

/-- `remove_path_graphics` from the source.  Since no match of the pattern
spans a newline and every match runs to the last `}` of its line, the global
`re.sub` is the same as rewriting each line independently. -/
def remove_path_graphics (s : Txt) : Txt :=
  joinLines ((splitLines s).map rewriteLine)

/-- The capture of `re.findall(r"\\includegraphics(?:.*){(.*)}", ·)` on one
line: the region between the chosen braces (same brace choice as in
`lineGraphicsSplit`). -/
def lineGraphicsCapture (l : Txt) : Option Txt :=
  match lineGraphicsSplit l with
  | none => none
  | some (_, _, region, _) => some region

/-- `find_graphics_in_file` from the source: all captures, one per matching
line, in textual order. -/
def find_graphics_in_file (s : Txt) : List Txt :=
  (splitLines s).filterMap lineGraphicsCapture

/-- `project_folder.glob(tok + ".*")` for a literal token `tok`: the path
must be `tok`, a dot, and a remainder in which `*` matches any run of
characters without a path separator. -/
def globDotStar (tok p : Txt) : Bool :=
  (tok ++ ['.']).isPrefixOf p && (p.drop (tok.length + 1)).all (fun c => c ≠ '/')

/-- The resolution `list(project.glob(file + ".*")) + list(project.glob(file))`
of `extract_graphics_files`, over a project folder modelled as the list of
its file paths. -/
def resolveGraphics (project : List Txt) (tok : Txt) : List Txt :=
  project.filter (fun p => globDotStar tok p) ++ project.filter (fun p => p == tok)

/-- `Path.name`: the final path component. -/
def fileName (p : Txt) : Txt :=
  match splitLast '/' p with
  | some (_, n) => n
  | none => p

/-- `extract_graphics_files` from the source, as the list of copy operations
it performs: for every captured token, every resolved file is copied to the
output folder under its base name.  No error is possible: a token that
resolves to zero files simply contributes no copies. -/
def extract_graphics_files (project : List Txt) (content : Txt) : List (Txt × Txt) :=
  (find_graphics_in_file content).flatMap
    (fun tok => (resolveGraphics project tok).map (fun p => (p, fileName p)))

/-- `main` from the source: run `parse_file`; on success perform the
graphics copies, rewrite the graphics paths and write the single output
`.tex` file.  The `.ok` payload is (content written to the output file,
copies performed).  An abort inside `parse_file` (`some (.error ())`)
happens before anything is copied or written. -/
def mainRun (fs : FS) (project : List Txt) (fuel : Nat) (path : Txt) :
    Option (Except Unit (Txt × List (Txt × Txt))) :=
  match parse_file fs fuel path with
  | none => none
  | some (.error e) => some (.error e)
  | some (.ok c) => some (.ok (remove_path_graphics c, extract_graphics_files project c))

/-- A document tree for the inlining model: a document is a list of lines;
a line is either plain text or an `\input` directive carrying the parsed
form of the file it includes. -/
inductive DocT : Type where
  | plain (l : Txt) : DocT
  | inp (name : Txt) (sub : List DocT) : DocT

/-- The text of one line of a document tree. -/
def lineTxt : DocT → Txt
  | .plain l => l
  | .inp name _ => inputTok ++ name ++ [rbrace]

/-- The text of a document tree. -/
def docTxt (ds : List DocT) : Txt :=
  joinLines (ds.map lineTxt)

/-- Well-formedness of a document tree over a file system: a plain line
contains no `\input{` token and no newline; an `\input` line has a capturable
name (no `}`, no newline) naming an existing file whose content is the text
of its (nonempty) subtree, recursively well-formed. -/
inductive TOk (fs : FS) : DocT → Prop where
  | plain (l : Txt) :
      splitFirstTok inputTok l = none → '\n' ∉ l → TOk fs (.plain l)
  | inp (name : Txt) (sub : List DocT) :
      rbrace ∉ name → '\n' ∉ name → fs name = some (docTxt sub) → sub ≠ [] →
      (∀ d, d ∈ sub → TOk fs d) → TOk fs (.inp name sub)

mutual
/-- Nesting depth of one line: a plain line has depth 0, an `\input` line
one more than its file. -/
def tDepth : DocT → Nat
  | .plain _ => 0
  | .inp _ sub => 1 + docDepth sub
/-- Maximum nesting depth of a document (0 when it has no `\input` line). -/
def docDepth : List DocT → Nat
  | [] => 0
  | d :: ds => max (tDepth d) (docDepth ds)
end

/-- The `\input` names of a document's lines, in order. -/
def inpNames : List DocT → List Txt
  | [] => []
  | .plain _ :: ds => inpNames ds
  | .inp n _ :: ds => n :: inpNames ds

/-- Prepend text to the first of a list of segments. -/
def consSeg (x : Txt) : List Txt → List Txt
  | s :: ss => (x ++ s) :: ss
  | [] => [x]

/-- The segments `re.split` produces on the text of a well-formed document:
the pieces between the `\input` matches (a match covers exactly its
`\input{name}` line without the adjacent newlines). -/
def segsOf : List DocT → List Txt
  | [] => [[]]
  | [.plain l] => [l]
  | [.inp _ _] => [[], []]
  | .plain l :: d :: ds => consSeg (l ++ ['\n']) (segsOf (d :: ds))
  | .inp _ _ :: d :: ds => [] :: consSeg ['\n'] (segsOf (d :: ds))

/-- One scan-and-splice pass on a document tree: every `\input` line is
replaced by the lines of its file. -/
def passStep : DocT → List DocT
  | .plain l => [.plain l]
  | .inp _ sub => sub

/-- One scan-and-splice pass on a whole document. -/
def passDs (ds : List DocT) : List DocT :=
  ds.flatMap passStep

/-- `s` contains an occurrence of `\input{...}` closed on the same line
(which is exactly what the scan pattern can match). -/
def hasInputOcc (s : Txt) : Prop :=
  ∃ a b d, s = a ++ inputTok ++ b ++ rbrace :: d ∧ '\n' ∉ b

/-- A token has no self-overlap: no proper nonempty suffix of it is also a
prefix of it.  Both literal tokens of the program have this property, so an
occurrence of a token can never straddle the boundary of an inserted copy
of that token. -/
def noSelfOverlap (tok : Txt) : Prop :=
  ∀ k, k < tok.length → 0 < k → tok.drop k ≠ tok.take (tok.length - k)

example : find_inputs_in_file "A\\input\x7bx\x7dB".data = (["x".data], ["A".data, "B".data]) := by decide

example :
    find_inputs_in_file "A\\input\x7bx\x7dB\\input\x7by\x7dC".data
      = (["x\x7dB\\input\x7by".data], ["A".data, "C".data]) := by decide

example :
    remove_path_graphics "\\includegraphics[width=1cm]\x7bfigures/plot\x7d".data
      = "\\includegraphics[width=1cm]\x7bplot\x7d".data := by decide

example :
    remove_path_graphics "\\includegraphics\x7ba/b\x7d\\includegraphics\x7bc/d\x7d".data
      = "\\includegraphics\x7ba/b\x7d\\includegraphics\x7bd\x7d".data := by decide

/-- Example file system for the order-preservation scenarios: file `x`
contains `X`, file `y` contains `Y`, and two candidate main documents:
`oneline` has both directives on one line, `twoline` one per line. -/
def fsXY : FS := fun p =>
  if p = "x".data then some "X".data
  else if p = "y".data then some "Y".data
  else if p = "oneline".data then some "A\\input\x7bx\x7dB\\input\x7by\x7dC".data
  else if p = "twoline".data then some "A\\input\x7bx\x7d\nB\\input\x7by\x7d\nC".data
  else none

/-- File system with a two-file inclusion cycle: `a` includes `b` and `b`
includes `a`. -/
def fsCyc : FS := fun p =>
  if p = "a".data then some "\\input\x7bb\x7d".data
  else if p = "b".data then some "\\input\x7ba\x7d".data
  else none

/-- File system where file `x` contains the text `{x}` (no `\input` token at
all, so `x` is a leaf of the inclusion graph). -/
def fsBrace : FS := fun p =>
  if p = "x".data then some "\x7bx\x7d".data else none

/-- File system for witnesses: a plain file, a leaf file `x`, and a two-line
main document `Hello` + `\input{x}`. -/
def fsW : FS := fun p =>
  if p = "x".data then some "X".data
  else if p = "plain.tex".data then some "Hello".data
  else if p = "main.tex".data then some "Hello\n\\input\x7bx\x7d".data
  else none

/-- The document tree of `fsW`'s `main.tex`. -/
def dsW : List DocT := [DocT.plain "Hello".data, DocT.inp "x".data [DocT.plain "X".data]]

/-- File system whose main document references a file that does not exist. -/
def fsMiss : FS := fun p =>
  if p = "main.tex".data then some "\\input\x7bmissing\x7d".data else none

/-- File system for the dangling-graphics witness: one main document with a
graphics reference and no `\input`. -/
def fsG : FS := fun p =>
  if p = "g.tex".data then some "\\includegraphics\x7bfigures/plot\x7d".data else none

/-! ### Specifications of the splitting primitives -/

theorem splitLast_none (ch : Char) : ∀ s : Txt, splitLast ch s = none ↔ ch ∉ s := by
  intro s
  induction s with
  | nil => simp [splitLast]
  | cons c cs ih =>
    simp only [splitLast]
    cases h : splitLast ch cs with
    | some p =>
      have hmem : ch ∈ cs := by
        by_contra hn
        have h2 := ih.mpr hn
        rw [h] at h2
        exact Option.noConfusion h2
      simp [List.mem_cons, hmem]
    | none =>
      have hcs : ch ∉ cs := ih.mp h
      by_cases hc : c = ch
      · subst hc
        simp [List.mem_cons]
      · simp only [if_neg hc]
        constructor
        · intro _ hmem
          rcases List.mem_cons.mp hmem with he | hin
          · exact hc he.symm
          · exact hcs hin
        · intro _
          trivial

theorem splitLast_some (ch : Char) :
    ∀ s b a, splitLast ch s = some (b, a) → s = b ++ ch :: a ∧ ch ∉ a := by
  intro s
  induction s with
  | nil => intro b a h; exact Option.noConfusion h
  | cons c cs ih =>
    intro b a h
    simp only [splitLast] at h
    cases h2 : splitLast ch cs with
    | some p =>
      rw [h2] at h
      cases p with
      | mk b' a' =>
        simp only [Option.some_inj, Prod.mk.injEq] at h
        obtain ⟨hb, ha⟩ := h
        obtain ⟨he, hn⟩ := ih b' a' h2
        subst hb; subst ha
        exact ⟨by rw [he]; rfl, hn⟩
    | none =>
      rw [h2] at h
      by_cases hc : c = ch
      · rw [if_pos hc] at h
        simp only [Option.some_inj, Prod.mk.injEq] at h
        obtain ⟨hb, ha⟩ := h
        subst hb; subst ha
        refine ⟨by simp [hc], (splitLast_none ch cs).mp h2⟩
      · rw [if_neg hc] at h
        exact Option.noConfusion h

theorem splitLast_eq (ch : Char) :
    ∀ b a, ch ∉ a → splitLast ch (b ++ ch :: a) = some (b, a) := by
  intro b
  induction b with
  | nil =>
    intro a hn
    simp only [List.nil_append, splitLast]
    rw [(splitLast_none ch a).mpr hn]
    simp
  | cons c b' ih =>
    intro a hn
    simp only [List.cons_append, splitLast]
    rw [List.append_eq, ih a hn]

/-! ### Prefix helpers -/

theorem isPrefixOf_append_left (tok a b : Txt) (h : tok.length ≤ a.length) :
    tok.isPrefixOf (a ++ b) ↔ tok.isPrefixOf a := by
  rw [List.isPrefixOf_iff_prefix, List.isPrefixOf_iff_prefix, List.prefix_iff_eq_take,
    List.prefix_iff_eq_take, List.take_append_eq_append_take, Nat.sub_eq_zero_of_le h,
    List.take_zero, List.append_nil]

theorem take_eq_of_isPrefixOf {tok s : Txt} (h : tok.isPrefixOf s) :
    s.take tok.length = tok :=
  (List.prefix_iff_eq_take.mp (List.isPrefixOf_iff_prefix.mp h)).symm

theorem isPrefixOf_append_self (tok b : Txt) : tok.isPrefixOf (tok ++ b) :=
  List.isPrefixOf_iff_prefix.mpr (List.prefix_append tok b)

theorem eq_append_drop_of_isPrefixOf {tok s : Txt} (h : tok.isPrefixOf s) :
    s = tok ++ s.drop tok.length := by
  obtain ⟨t, rfl⟩ := List.isPrefixOf_iff_prefix.mp h
  rw [List.drop_left]

/-! ### Specification of `splitFirstTok` -/

theorem splitFirstTok_some (tok : Txt) :
    ∀ s p a, splitFirstTok tok s = some (p, a) → s = p ++ tok ++ a := by
  intro s
  induction s with
  | nil =>
    intro p a h
    simp only [splitFirstTok] at h
    by_cases hp : tok.isPrefixOf ([] : Txt)
    · rw [if_pos hp] at h
      simp only [Option.some_inj, Prod.mk.injEq] at h
      obtain ⟨hb, ha⟩ := h
      subst hb; subst ha
      have : tok = [] := List.prefix_nil.mp (List.isPrefixOf_iff_prefix.mp hp)
      simp [this]
    · rw [if_neg hp] at h
      exact Option.noConfusion h
  | cons c cs ih =>
    intro p a h
    simp only [splitFirstTok] at h
    by_cases hp : tok.isPrefixOf (c :: cs)
    · rw [if_pos hp] at h
      simp only [Option.some_inj, Prod.mk.injEq] at h
      obtain ⟨hb, ha⟩ := h
      subst hb; subst ha
      simpa using eq_append_drop_of_isPrefixOf hp
    · rw [if_neg hp] at h
      cases h2 : splitFirstTok tok cs with
      | some q =>
        rw [h2] at h
        cases q with
        | mk p' a' =>
          simp only [Option.some_inj, Prod.mk.injEq] at h
          obtain ⟨hb, ha⟩ := h
          subst hb; subst ha
          have := ih p' a' h2
          simp [this]
      | none =>
        rw [h2] at h
        exact Option.noConfusion h

theorem splitFirstTok_none_cons {tok : Txt} {c : Char} {cs : Txt} :
    splitFirstTok tok (c :: cs) = none ↔
      ¬ tok.isPrefixOf (c :: cs) ∧ splitFirstTok tok cs = none := by
  simp only [splitFirstTok]
  by_cases hp : tok.isPrefixOf (c :: cs)
  · simp [hp]
  · simp only [if_neg hp]
    cases h2 : splitFirstTok tok cs with
    | some q => simp [hp]
    | none => simp [hp]

/-- An occurrence of a non-self-overlapping token cannot begin strictly
inside a text `p` that is immediately followed by the token. -/
theorem not_isPrefixOf_short {tok p x : Txt} (hno : noSelfOverlap tok)
    (hlen : p.length < tok.length) (hp : p ≠ []) :
    ¬ tok.isPrefixOf (p ++ tok ++ x) := by
  intro hpre
  have htake : (p ++ tok ++ x).take tok.length = tok := take_eq_of_isPrefixOf hpre
  rw [List.append_assoc, List.take_append_eq_append_take,
    List.take_of_length_le (Nat.le_of_lt hlen), List.take_append_eq_append_take,
    (by omega : tok.length - p.length - tok.length = 0), List.take_zero,
    List.append_nil] at htake
  have hdrop : tok.drop p.length = tok.take (tok.length - p.length) := by
    conv_lhs => rw [← htake]
    rw [List.drop_left]
  exact hno p.length hlen (by
    cases p with
    | nil => exact absurd rfl hp
    | cons _ _ => simp) hdrop

theorem splitFirstTok_append (tok : Txt) (hno : noSelfOverlap tok) (hne : tok ≠ []) :
    ∀ p x, splitFirstTok tok p = none → splitFirstTok tok (p ++ tok ++ x) = some (p, x) := by
  intro p
  induction p with
  | nil =>
    intro x _
    cases tok with
    | nil => exact absurd rfl hne
    | cons t ts =>
      show splitFirstTok (t :: ts) ((t :: ts) ++ x) = some ([], x)
      rw [List.cons_append]
      simp only [splitFirstTok]
      have h1 : (t :: ts).isPrefixOf (t :: (ts ++ x)) = true := by
        rw [← List.cons_append]
        exact isPrefixOf_append_self (t :: ts) x
      rw [if_pos h1]
      have h2 : List.drop (t :: ts).length (t :: (ts ++ x)) = x := by
        rw [← List.cons_append]
        exact List.drop_left (t :: ts) x
      rw [h2]
  | cons c p' ih =>
    intro x h
    obtain ⟨hnp, hrest⟩ := splitFirstTok_none_cons.mp h
    have hgoal : (c :: p') ++ tok ++ x = c :: (p' ++ tok ++ x) := by simp
    rw [hgoal, splitFirstTok]
    have hnotpre : ¬ tok.isPrefixOf (c :: (p' ++ tok ++ x)) := by
      by_cases hlen : tok.length ≤ (c :: p').length
      · intro hpre
        rw [show c :: (p' ++ tok ++ x) = (c :: p') ++ (tok ++ x) by simp] at hpre
        exact hnp ((isPrefixOf_append_left tok (c :: p') (tok ++ x) hlen).mp hpre)
      · rw [show c :: (p' ++ tok ++ x) = (c :: p') ++ tok ++ x by simp]
        exact not_isPrefixOf_short hno (by omega) (by simp)
    rw [if_neg hnotpre, ih x hrest]

/-! ### Overlap facts for the two literal tokens -/

theorem inputTok_noOverlap : noSelfOverlap inputTok := by
  unfold noSelfOverlap
  decide

theorem graphicsTok_noOverlap : noSelfOverlap graphicsTok := by
  unfold noSelfOverlap
  decide

/-! ### Specification of `tryMatch` and `firstInput` -/

theorem takeWhile_append_all {p : Char → Bool} {a : Txt} (b : Txt)
    (h : ∀ x ∈ a, p x) : (a ++ b).takeWhile p = a ++ b.takeWhile p := by
  induction a with
  | nil => simp
  | cons c cs ih =>
    have hc : p c := h c (by simp)
    simp [List.takeWhile_cons, hc, ih (fun x hx => h x (List.mem_cons_of_mem _ hx))]

theorem drop_len_succ (b : Txt) (c : Char) (x : Txt) :
    (b ++ c :: x).drop (b.length + 1) = x := by
  have : b ++ c :: x = (b ++ [c]) ++ x := by simp
  rw [this, show b.length + 1 = (b ++ [c]).length by simp, List.drop_left]

theorem tryMatch_some {s cap rest : Txt} (h : tryMatch s = some (cap, rest)) :
    s = inputTok ++ cap ++ rbrace :: rest ∧ '\n' ∉ cap := by
  simp only [tryMatch] at h
  by_cases hp : inputTok.isPrefixOf s
  · rw [if_pos hp] at h
    cases hsl : splitLast rbrace ((s.drop inputTok.length).takeWhile notNL) with
    | none => rw [hsl] at h; exact Option.noConfusion h
    | some q =>
      rw [hsl] at h
      cases q with
      | mk before after =>
        simp only [Option.some_inj, Prod.mk.injEq] at h
        obtain ⟨hcap, hrest⟩ := h
        obtain ⟨hline, _⟩ := splitLast_some rbrace _ _ _ hsl
        have hnl : '\n' ∉ before := by
          intro hmem
          have hmem2 : '\n' ∈ (s.drop inputTok.length).takeWhile notNL := by
            rw [hline]
            exact List.mem_append.mpr (Or.inl hmem)
          have := List.mem_takeWhile_imp hmem2
          simp [notNL] at this
        have hdropfull : s.drop inputTok.length
            = ((s.drop inputTok.length).takeWhile notNL)
              ++ ((s.drop inputTok.length).dropWhile notNL) :=
          (List.takeWhile_append_dropWhile notNL (s.drop inputTok.length)).symm
        have hdecomp : s.drop inputTok.length
            = before ++ rbrace :: (after ++ (s.drop inputTok.length).dropWhile notNL) := by
          conv_lhs => rw [hdropfull, hline]
          simp
        have hrest2 : rest = after ++ (s.drop inputTok.length).dropWhile notNL := by
          rw [← hrest]
          conv_lhs => rw [hdecomp]
          rw [drop_len_succ]
        subst hcap
        constructor
        · rw [hrest2]
          conv_lhs => rw [eq_append_drop_of_isPrefixOf hp, hdecomp]
          simp
        · exact hnl
  · rw [if_neg hp] at h
    exact Option.noConfusion h

theorem tryMatch_line {name rest : Txt} (hnn : '\n' ∉ name)
    (hr : rbrace ∉ rest.takeWhile notNL) :
    tryMatch (inputTok ++ name ++ rbrace :: rest) = some (name, rest) := by
  have hpre : inputTok.isPrefixOf (inputTok ++ name ++ rbrace :: rest) := by
    rw [List.append_assoc]
    exact isPrefixOf_append_self inputTok (name ++ rbrace :: rest)
  have hdrop : (inputTok ++ name ++ rbrace :: rest).drop inputTok.length
      = name ++ rbrace :: rest := by
    rw [List.append_assoc]
    exact List.drop_left inputTok (name ++ rbrace :: rest)
  have hline : (name ++ rbrace :: rest).takeWhile notNL
      = name ++ rbrace :: rest.takeWhile notNL := by
    rw [takeWhile_append_all (rbrace :: rest)
      (fun x hx => by simp [notNL]; intro he; exact hnn (he ▸ hx))]
    rw [List.takeWhile_cons]
    simp [notNL, rbrace, Char.ofNat]
  simp only [tryMatch, if_pos hpre, hdrop, hline]
  rw [splitLast_eq rbrace name (rest.takeWhile notNL) hr]
  simp only [drop_len_succ]

theorem firstInput_cons_some {c : Char} {cs cap rest : Txt}
    (h : tryMatch (c :: cs) = some (cap, rest)) :
    firstInput (c :: cs) = some ([], cap, rest) := by
  simp [firstInput, h]

theorem firstInput_cons_none {c : Char} {cs : Txt} (h : tryMatch (c :: cs) = none) :
    firstInput (c :: cs) = (firstInput cs).map (fun r => (c :: r.1, r.2)) := by
  simp only [firstInput, h]
  cases firstInput cs with
  | none => rfl
  | some r => rfl

theorem firstInput_decomp :
    ∀ s seg cap rest, firstInput s = some (seg, cap, rest) →
      s = seg ++ inputTok ++ cap ++ rbrace :: rest ∧ '\n' ∉ cap := by
  intro s
  induction s with
  | nil => intro seg cap rest h; exact Option.noConfusion h
  | cons c cs ih =>
    intro seg cap rest h
    cases htm : tryMatch (c :: cs) with
    | some q =>
      cases q with
      | mk cap' rest' =>
        rw [firstInput_cons_some htm] at h
        simp only [Option.some_inj, Prod.mk.injEq] at h
        obtain ⟨hseg, hcap, hrest⟩ := h
        subst hseg; subst hcap; subst hrest
        obtain ⟨he, hn⟩ := tryMatch_some htm
        exact ⟨by simpa using he, hn⟩
    | none =>
      rw [firstInput_cons_none htm] at h
      cases hfi : firstInput cs with
      | none => rw [hfi] at h; exact Option.noConfusion h
      | some r =>
        rw [hfi] at h
        simp only [Option.map_some', Option.some_inj] at h
        cases r with
        | mk seg' rr =>
          obtain ⟨hseg, hrr⟩ : c :: seg' = seg ∧ rr = (cap, rest) := by
            constructor
            · exact congrArg Prod.fst h
            · exact congrArg Prod.snd h
          subst hseg
          subst hrr
          obtain ⟨he, hn⟩ := ih seg' cap rest hfi
          exact ⟨by rw [he]; simp, hn⟩

theorem firstInput_length {s seg cap rest : Txt}
    (h : firstInput s = some (seg, cap, rest)) : rest.length < s.length := by
  obtain ⟨he, _⟩ := firstInput_decomp s seg cap rest h
  rw [he]
  simp [List.length_append]
  omega

/-! ### The fuel in `find_inputs_in_file` is always sufficient -/

theorem findInputsAux_stable :
    ∀ n, ∀ m, ∀ s : Txt, s.length ≤ n → s.length ≤ m →
      findInputsAux n s = findInputsAux m s := by
  intro n
  induction n with
  | zero =>
    intro m s hn _
    have hs : s = [] := List.length_eq_zero.mp (Nat.le_zero.mp hn)
    subst hs
    cases m with
    | zero => rfl
    | succ k => simp [findInputsAux, firstInput]
  | succ a ih =>
    intro m s hn hm
    cases m with
    | zero =>
      have hs : s = [] := List.length_eq_zero.mp (Nat.le_zero.mp hm)
      subst hs
      simp [findInputsAux, firstInput]
    | succ b =>
      simp only [findInputsAux]
      cases hfi : firstInput s with
      | none => rfl
      | some r =>
        cases r with
        | mk seg rr =>
          cases rr with
          | mk cap rest =>
            have hlt : rest.length < s.length := firstInput_length hfi
            show (cap :: (findInputsAux a rest).1, seg :: (findInputsAux a rest).2)
              = (cap :: (findInputsAux b rest).1, seg :: (findInputsAux b rest).2)
            rw [ih b rest (by omega) (by omega)]

theorem findInputs_eq (s : Txt) :
    find_inputs_in_file s =
      match firstInput s with
      | none => ([], [s])
      | some (seg, cap, rest) =>
        ((cap :: (find_inputs_in_file rest).1, seg :: (find_inputs_in_file rest).2)) := by
  unfold find_inputs_in_file
  cases hl : s.length with
  | zero =>
    have hs : s = [] := List.length_eq_zero.mp hl
    subst hs
    simp [findInputsAux, firstInput]
  | succ k =>
    simp only [findInputsAux]
    cases hfi : firstInput s with
    | none => rfl
    | some r =>
      cases r with
      | mk seg rr =>
        cases rr with
        | mk cap rest =>
          have hlt : rest.length < s.length := firstInput_length hfi
          show (cap :: (findInputsAux k rest).1, seg :: (findInputsAux k rest).2)
            = (cap :: (findInputsAux rest.length rest).1, seg :: (findInputsAux rest.length rest).2)
          rw [findInputsAux_stable k rest.length rest (by omega) (by omega)]

/-! ### Occurrences and the scan -/

theorem tryMatch_none_not_pre {s : Txt} (h : ¬ inputTok.isPrefixOf s) :
    tryMatch s = none := by
  simp only [tryMatch, if_neg h]

theorem firstInput_none_of_splitFirstTok :
    ∀ l : Txt, splitFirstTok inputTok l = none → firstInput l = none := by
  intro l
  induction l with
  | nil => intro _; rfl
  | cons c cs ih =>
    intro h
    obtain ⟨hnp, hrest⟩ := splitFirstTok_none_cons.mp h
    rw [firstInput_cons_none (tryMatch_none_not_pre hnp), ih hrest]
    rfl

theorem firstInput_occ {s seg cap rest : Txt}
    (h : firstInput s = some (seg, cap, rest)) : hasInputOcc s := by
  obtain ⟨he, hn⟩ := firstInput_decomp s seg cap rest h
  exact ⟨seg, cap, rest, by simpa using he, hn⟩

theorem firstInput_ne_none_of_occ {s : Txt} (h : hasInputOcc s) :
    firstInput s ≠ none := by
  obtain ⟨a, b, d, he, hnl⟩ := h
  subst he
  induction a with
  | nil =>
    have htm : tryMatch (inputTok ++ b ++ rbrace :: d) ≠ none := by
      simp only [tryMatch, List.append_assoc,
        if_pos (isPrefixOf_append_self inputTok (b ++ rbrace :: d)),
        List.drop_left inputTok (b ++ rbrace :: d)]
      have hline : rbrace ∈ (b ++ rbrace :: d).takeWhile notNL := by
        rw [takeWhile_append_all (rbrace :: d)
          (fun x hx => by simp [notNL]; intro he2; exact hnl (he2 ▸ hx))]
        rw [List.takeWhile_cons]
        simp [notNL, rbrace, Char.ofNat]
      cases hsl : splitLast rbrace ((b ++ rbrace :: d).takeWhile notNL) with
      | some q => simp
      | none => exact absurd ((splitLast_none rbrace _).mp hsl) (by simp [hline])
    cases s2 : inputTok ++ b ++ rbrace :: d with
    | nil => simp [inputTok] at s2
    | cons c cs =>
      rw [s2] at htm
      cases htm2 : tryMatch (c :: cs) with
      | none => exact absurd htm2 htm
      | some q =>
        cases q with
        | mk cap rest =>
          simp only [List.nil_append]
          rw [s2, firstInput_cons_some htm2]
          simp
  | cons c a' iha =>
    intro hnone
    have hstep : (c :: (a' ++ inputTok ++ b ++ rbrace :: d)) = c :: a' ++ inputTok ++ b ++ rbrace :: d := by
      simp
    rw [← hstep] at hnone
    cases htm : tryMatch (c :: (a' ++ inputTok ++ b ++ rbrace :: d)) with
    | some q =>
      cases q with
      | mk cap rest => rw [firstInput_cons_some htm] at hnone; exact Option.noConfusion hnone
    | none =>
      rw [firstInput_cons_none htm] at hnone
      cases hfi : firstInput (a' ++ inputTok ++ b ++ rbrace :: d) with
      | some r => rw [hfi] at hnone; exact Option.noConfusion hnone
      | none => exact iha hfi

theorem find_amount_zero_iff (s : Txt) :
    find_amount_of_inputs s = 0 ↔ firstInput s = none := by
  unfold find_amount_of_inputs
  rw [findInputs_eq]
  cases hfi : firstInput s with
  | none => simp
  | some r =>
    cases r with
    | mk seg rr =>
      cases rr with
      | mk cap rest => simp

theorem no_occ_of_amount_zero {s : Txt} (h : find_amount_of_inputs s = 0) :
    ¬ hasInputOcc s :=
  fun hocc => firstInput_ne_none_of_occ hocc ((find_amount_zero_iff s).mp h)

theorem amount_zero_of_no_occ {s : Txt} (h : ¬ hasInputOcc s) :
    find_amount_of_inputs s = 0 := by
  rw [find_amount_zero_iff]
  cases hfi : firstInput s with
  | none => rfl
  | some r =>
    cases r with
    | mk seg rr =>
      cases rr with
      | mk cap rest => exact absurd (firstInput_occ hfi) h

theorem parseLoop_of_amount_zero {fs : FS} {c : Txt}
    (h : find_amount_of_inputs c = 0) :
    ∀ fuel, parseLoop fs fuel c = some (.ok c) := by
  intro fuel
  cases fuel with
  | zero => simp [parseLoop, h]
  | succ n => simp [parseLoop, h]

theorem parseLoop_ok_amount {fs : FS} :
    ∀ fuel c r, parseLoop fs fuel c = some (.ok r) → find_amount_of_inputs r = 0 := by
  intro fuel
  induction fuel with
  | zero =>
    intro c r h
    simp only [parseLoop] at h
    by_cases hc : find_amount_of_inputs c = 0
    · rw [if_pos hc] at h
      simp only [Option.some_inj] at h
      cases h
      exact hc
    · rw [if_neg hc] at h
      exact Option.noConfusion h
  | succ n ih =>
    intro c r h
    simp only [parseLoop] at h
    by_cases hc : find_amount_of_inputs c = 0
    · rw [if_pos hc] at h
      simp only [Option.some_inj] at h
      cases h
      exact hc
    · rw [if_neg hc] at h
      cases hsp : spliceList fs (find_inputs_in_file c).1 (find_inputs_in_file c).2 with
      | error e => rw [hsp] at h; simp at h
      | ok c' =>
        rw [hsp] at h
        exact ih c' r h

theorem nl_not_mem_inputTok : '\n' ∉ inputTok := by decide

theorem not_isPrefixOf_into_newline {l rest : Txt} (hl : l.length < inputTok.length) :
    ¬ inputTok.isPrefixOf (l ++ '\n' :: rest) := by
  intro hpre
  have htake := take_eq_of_isPrefixOf hpre
  rw [List.take_append_eq_append_take, List.take_of_length_le (Nat.le_of_lt hl)] at htake
  have hnl : '\n' ∈ inputTok := by
    rw [← htake]
    apply List.mem_append.mpr
    right
    cases h7 : inputTok.length - l.length with
    | zero => omega
    | succ m =>
      rw [List.take_succ_cons]
      simp
  exact nl_not_mem_inputTok hnl

theorem firstInput_skip :
    ∀ l rest : Txt, splitFirstTok inputTok l = none →
      firstInput (l ++ '\n' :: rest)
        = (firstInput rest).map (fun r => (l ++ '\n' :: r.1, r.2)) := by
  intro l
  induction l with
  | nil =>
    intro rest _
    have htm : tryMatch ('\n' :: rest) = none :=
      tryMatch_none_not_pre (by
        intro hpre
        exact nl_not_mem_inputTok (by
          have := take_eq_of_isPrefixOf hpre
          rw [← this]
          simp [inputTok]))
    rw [List.nil_append, firstInput_cons_none htm]
    cases firstInput rest <;> rfl
  | cons c l' ih =>
    intro rest h
    obtain ⟨hnp, hrest⟩ := splitFirstTok_none_cons.mp h
    have hnotpre : ¬ inputTok.isPrefixOf (c :: (l' ++ '\n' :: rest)) := by
      by_cases hlen : inputTok.length ≤ (c :: l').length
      · intro hpre
        rw [show c :: (l' ++ '\n' :: rest) = (c :: l') ++ '\n' :: rest by simp] at hpre
        exact hnp ((isPrefixOf_append_left inputTok (c :: l') ('\n' :: rest) hlen).mp hpre)
      · rw [show c :: (l' ++ '\n' :: rest) = (c :: l') ++ '\n' :: rest by simp]
        exact not_isPrefixOf_into_newline (by omega)
    rw [show (c :: l') ++ '\n' :: rest = c :: (l' ++ '\n' :: rest) by simp]
    rw [firstInput_cons_none (tryMatch_none_not_pre hnotpre), ih rest hrest]
    cases firstInput rest <;> simp

theorem firstInput_of_tryMatch {s cap rest : Txt} (hne : s ≠ [])
    (h : tryMatch s = some (cap, rest)) : firstInput s = some ([], cap, rest) := by
  cases s with
  | nil => exact absurd rfl hne
  | cons c cs => exact firstInput_cons_some h

theorem firstInput_line {name rest : Txt} (hnn : '\n' ∉ name)
    (hr : rbrace ∉ rest.takeWhile notNL) :
    firstInput (inputTok ++ name ++ rbrace :: rest) = some ([], name, rest) :=
  firstInput_of_tryMatch (by simp [inputTok]) (tryMatch_line hnn hr)

/-! ### Text of documents -/

theorem joinLines_cons {l : Txt} {ls : List Txt} (h : ls ≠ []) :
    joinLines (l :: ls) = l ++ '\n' :: joinLines ls := by
  cases ls with
  | nil => exact absurd rfl h
  | cons a as => rfl

theorem joinLines_append {xs ys : List Txt} (hx : xs ≠ []) (hy : ys ≠ []) :
    joinLines (xs ++ ys) = joinLines xs ++ '\n' :: joinLines ys := by
  induction xs with
  | nil => exact absurd rfl hx
  | cons a as ih =>
    cases as with
    | nil =>
      rw [List.singleton_append, joinLines_cons hy]
      rfl
    | cons b bs =>
      rw [List.cons_append, joinLines_cons (by simp), joinLines_cons (by simp)]
      rw [ih (by simp)]
      simp

theorem docTxt_cons {d : DocT} {ds : List DocT} (h : ds ≠ []) :
    docTxt (d :: ds) = lineTxt d ++ '\n' :: docTxt ds := by
  unfold docTxt
  rw [List.map_cons, joinLines_cons (by simpa using h)]

theorem docTxt_append {xs ys : List DocT} (hx : xs ≠ []) (hy : ys ≠ []) :
    docTxt (xs ++ ys) = docTxt xs ++ '\n' :: docTxt ys := by
  unfold docTxt
  rw [List.map_append, joinLines_append (by simpa using hx) (by simpa using hy)]

theorem segsOf_ne_nil : ∀ ds : List DocT, segsOf ds ≠ [] := by
  intro ds
  cases ds with
  | nil => simp [segsOf]
  | cons d rest =>
    cases d with
    | plain l =>
      cases rest with
      | nil => simp [segsOf]
      | cons e es =>
        simp only [segsOf, consSeg]
        cases segsOf (e :: es) with
        | nil => simp
        | cons s ss => simp
    | inp n sub =>
      cases rest with
      | nil => simp [segsOf]
      | cons e es => simp [segsOf]

theorem find_newline_cons {l : Txt} (R : Txt) (h : splitFirstTok inputTok l = none) :
    find_inputs_in_file (l ++ '\n' :: R)
      = ((find_inputs_in_file R).1, consSeg (l ++ ['\n']) (find_inputs_in_file R).2) := by
  rw [findInputs_eq (l ++ '\n' :: R), firstInput_skip l R h]
  cases hfi : firstInput R with
  | none =>
    rw [findInputs_eq R, hfi]
    simp [consSeg]
  | some r =>
    cases r with
    | mk seg rr =>
      cases rr with
      | mk cap rest =>
        rw [findInputs_eq R, hfi]
        simp [consSeg]

theorem scan_doc (fs : FS) : ∀ ds : List DocT, (∀ d ∈ ds, TOk fs d) →
    find_inputs_in_file (docTxt ds) = (inpNames ds, segsOf ds) := by
  intro ds
  induction ds with
  | nil =>
    intro _
    show find_inputs_in_file [] = ([], [[]])
    rw [findInputs_eq]
    rfl
  | cons x tail ih =>
    intro h
    cases x with
    | plain l =>
      have hx : TOk fs (.plain l) := h _ (by simp)
      have hsf : splitFirstTok inputTok l = none := by cases hx with | plain _ h1 _ => exact h1
      cases tail with
      | nil =>
        show find_inputs_in_file l = (inpNames [.plain l], segsOf [.plain l])
        rw [findInputs_eq, firstInput_none_of_splitFirstTok l hsf]
        rfl
      | cons e es =>
        rw [docTxt_cons (by simp)]
        show find_inputs_in_file (l ++ '\n' :: docTxt (e :: es)) = _
        rw [find_newline_cons _ hsf, ih (fun d hd => h d (by simp [hd]))]
        simp [inpNames, segsOf]
    | inp n sub =>
      have hx : TOk fs (.inp n sub) := h _ (by simp)
      have hnb : rbrace ∉ n := by cases hx with | inp _ _ h1 _ _ _ _ => exact h1
      have hnn : '\n' ∉ n := by cases hx with | inp _ _ _ h2 _ _ _ => exact h2
      cases tail with
      | nil =>
        show find_inputs_in_file (inputTok ++ n ++ [rbrace]) = _
        have : inputTok ++ n ++ [rbrace] = inputTok ++ n ++ rbrace :: ([] : Txt) := rfl
        rw [this, findInputs_eq, firstInput_line hnn (by simp)]
        show (n :: (find_inputs_in_file ([] : Txt)).1, [] :: (find_inputs_in_file ([] : Txt)).2) = _
        rw [show find_inputs_in_file ([] : Txt) = ([], [[]]) from by rw [findInputs_eq]; rfl]
        rfl
      | cons e es =>
        rw [docTxt_cons (by simp)]
        show find_inputs_in_file ((inputTok ++ n ++ [rbrace]) ++ '\n' :: docTxt (e :: es)) = _
        have hshape : (inputTok ++ n ++ [rbrace]) ++ '\n' :: docTxt (e :: es)
            = inputTok ++ n ++ rbrace :: ('\n' :: docTxt (e :: es)) := by simp
        rw [hshape, findInputs_eq,
          firstInput_line hnn (by simp [List.takeWhile_cons, notNL])]
        have hnl2 : find_inputs_in_file ('\n' :: docTxt (e :: es))
            = ((find_inputs_in_file (docTxt (e :: es))).1,
               consSeg ['\n'] (find_inputs_in_file (docTxt (e :: es))).2) := by
          have := find_newline_cons (l := []) (docTxt (e :: es)) (by decide)
          simpa using this
        show (n :: (find_inputs_in_file ('\n' :: docTxt (e :: es))).1,
              [] :: (find_inputs_in_file ('\n' :: docTxt (e :: es))).2) = _
        rw [hnl2, ih (fun d hd => h d (by simp [hd]))]
        simp [inpNames, segsOf]

/-! ### Splicing the segments of a document -/

theorem spliceList_consSeg (fs : FS) (x : Txt) :
    ∀ caps segs : List Txt, segs ≠ [] →
      spliceList fs caps (consSeg x segs) = (spliceList fs caps segs).map (fun t => x ++ t) := by
  intro caps
  induction caps with
  | nil =>
    intro segs hne
    cases segs with
    | nil => exact absurd rfl hne
    | cons s ss => rfl
  | cons cap caps' ih =>
    intro segs hne
    cases segs with
    | nil => exact absurd rfl hne
    | cons s ss =>
      show spliceList fs (cap :: caps') ((x ++ s) :: ss)
        = (spliceList fs (cap :: caps') (s :: ss)).map (fun t => x ++ t)
      simp only [spliceList]
      cases fs cap with
      | none => rfl
      | some d =>
        cases hs : spliceList fs caps' ss with
        | error e => rfl
        | ok t => simp [Except.map, List.append_assoc]

theorem passDs_ne_nil (fs : FS) {ds : List DocT} (hne : ds ≠ [])
    (h : ∀ d ∈ ds, TOk fs d) : passDs ds ≠ [] := by
  cases ds with
  | nil => exact absurd rfl hne
  | cons x tail =>
    cases x with
    | plain l => simp [passDs, passStep]
    | inp n sub =>
      have hx : TOk fs (.inp n sub) := h _ (by simp)
      have hsub : sub ≠ [] := by cases hx with | inp _ _ _ _ _ h4 _ => exact h4
      have hps : passDs (DocT.inp n sub :: tail) = sub ++ passDs tail := by
        simp [passDs, passStep]
      rw [hps]
      intro habs
      exact hsub (List.append_eq_nil.mp habs).1

theorem splice_doc (fs : FS) : ∀ ds : List DocT, (∀ d ∈ ds, TOk fs d) →
    spliceList fs (inpNames ds) (segsOf ds) = .ok (docTxt (passDs ds)) := by
  intro ds
  induction ds with
  | nil => intro _; rfl
  | cons x tail ih =>
    intro h
    have htail : ∀ d ∈ tail, TOk fs d := fun d hd => h d (by simp [hd])
    cases x with
    | plain l =>
      cases tail with
      | nil => rfl
      | cons e es =>
        show spliceList fs (inpNames (e :: es)) (consSeg (l ++ ['\n']) (segsOf (e :: es)))
          = .ok (docTxt (passDs (.plain l :: e :: es)))
        rw [spliceList_consSeg fs _ _ _ (segsOf_ne_nil (e :: es)), ih htail]
        have hpne : passDs (e :: es) ≠ [] := passDs_ne_nil fs (by simp) htail
        have hpass : passDs (.plain l :: e :: es) = .plain l :: passDs (e :: es) := by
          simp [passDs, passStep]
        rw [hpass]
        rw [docTxt_cons hpne]
        simp [Except.map, lineTxt]
    | inp n sub =>
      have hx : TOk fs (.inp n sub) := h _ (by simp)
      have hfs : fs n = some (docTxt sub) := by cases hx with | inp _ _ _ _ h3 _ _ => exact h3
      have hsub : sub ≠ [] := by cases hx with | inp _ _ _ _ _ h4 _ => exact h4
      cases tail with
      | nil =>
        show spliceList fs [n] [[], []] = .ok (docTxt (passDs [.inp n sub]))
        have hpass : passDs [.inp n sub] = sub := by simp [passDs, passStep]
        simp only [spliceList, hfs, hpass]
        simp
      | cons e es =>
        show spliceList fs (n :: inpNames (e :: es))
            ([] :: consSeg ['\n'] (segsOf (e :: es)))
          = .ok (docTxt (passDs (.inp n sub :: e :: es)))
        simp only [spliceList, hfs]
        rw [spliceList_consSeg fs _ _ _ (segsOf_ne_nil (e :: es)), ih htail]
        have hpne : passDs (e :: es) ≠ [] := passDs_ne_nil fs (by simp) htail
        have hpass : passDs (.inp n sub :: e :: es) = sub ++ passDs (e :: es) := by
          simp [passDs, passStep]
        rw [hpass, docTxt_append hsub hpne]
        simp [Except.map]

/-! ### Depth bookkeeping -/

theorem passDs_cons (x : DocT) (tail : List DocT) :
    passDs (x :: tail) = passStep x ++ passDs tail := by
  simp [passDs]

theorem TOk_passDs (fs : FS) {ds : List DocT} (h : ∀ d ∈ ds, TOk fs d) :
    ∀ e ∈ passDs ds, TOk fs e := by
  intro e he
  rw [passDs, List.mem_flatMap] at he
  obtain ⟨d, hd, he2⟩ := he
  cases d with
  | plain l =>
    simp [passStep] at he2
    exact he2 ▸ h _ hd
  | inp n sub =>
    have hx : TOk fs (.inp n sub) := h _ hd
    cases hx with
    | inp _ _ _ _ _ _ h5 => exact h5 e he2

theorem docDepth_append : ∀ xs ys : List DocT,
    docDepth (xs ++ ys) = max (docDepth xs) (docDepth ys) := by
  intro xs ys
  induction xs with
  | nil => simp [docDepth]
  | cons a as ih =>
    show docDepth (a :: (as ++ ys)) = max (docDepth (a :: as)) (docDepth ys)
    simp only [docDepth, ih]
    omega

theorem docDepth_zero_iff : ∀ ds : List DocT, docDepth ds = 0 ↔ inpNames ds = [] := by
  intro ds
  induction ds with
  | nil => simp [docDepth, inpNames]
  | cons x tail ih =>
    cases x with
    | plain l =>
      show max (tDepth (.plain l)) (docDepth tail) = 0 ↔ inpNames tail = []
      simp only [tDepth]
      rw [← ih]
      omega
    | inp n sub =>
      show max (tDepth (.inp n sub)) (docDepth tail) = 0 ↔ n :: inpNames tail = []
      simp only [tDepth]
      constructor
      · intro habs; omega
      · intro habs; exact absurd habs (by simp)

theorem passDs_of_no_inp : ∀ ds : List DocT, inpNames ds = [] → passDs ds = ds := by
  intro ds
  induction ds with
  | nil => intro _; rfl
  | cons x tail ih =>
    intro h
    cases x with
    | plain l =>
      rw [passDs_cons]
      rw [ih (by simpa [inpNames] using h)]
      rfl
    | inp n sub => simp [inpNames] at h

theorem docDepth_passDs : ∀ ds : List DocT, inpNames ds ≠ [] →
    docDepth (passDs ds) = docDepth ds - 1 := by
  intro ds
  induction ds with
  | nil => intro h; exact absurd rfl h
  | cons x tail ih =>
    intro h
    cases x with
    | plain l =>
      have hN : inpNames tail ≠ [] := by simpa [inpNames] using h
      have hpos : docDepth tail ≠ 0 := fun h0 => hN ((docDepth_zero_iff tail).mp h0)
      rw [passDs_cons]
      show docDepth ([DocT.plain l] ++ passDs tail) = docDepth (DocT.plain l :: tail) - 1
      rw [docDepth_append, ih hN]
      show max (docDepth [DocT.plain l]) (docDepth tail - 1)
        = max (tDepth (DocT.plain l)) (docDepth tail) - 1
      simp only [docDepth, tDepth]
      omega
    | inp n sub =>
      rw [passDs_cons]
      show docDepth (sub ++ passDs tail) = docDepth (DocT.inp n sub :: tail) - 1
      rw [docDepth_append]
      by_cases hN : inpNames tail = []
      · rw [passDs_of_no_inp tail hN]
        have h0 : docDepth tail = 0 := (docDepth_zero_iff tail).mpr hN
        show max (docDepth sub) (docDepth tail)
          = max (tDepth (DocT.inp n sub)) (docDepth tail) - 1
        simp only [tDepth]
        omega
      · have hpos : docDepth tail ≠ 0 := fun h0 => hN ((docDepth_zero_iff tail).mp h0)
        rw [ih hN]
        show max (docDepth sub) (docDepth tail - 1)
          = max (tDepth (DocT.inp n sub)) (docDepth tail) - 1
        simp only [tDepth]
        omega

theorem amount_doc (fs : FS) {ds : List DocT} (h : ∀ d ∈ ds, TOk fs d) :
    find_amount_of_inputs (docTxt ds) = (inpNames ds).length := by
  unfold find_amount_of_inputs
  rw [scan_doc fs ds h]

/-- One scan-and-splice pass of the loop on a well-formed document's text:
amount is positive, and splicing yields the text of the document after one
pass. -/
theorem parseLoop_step_doc (fs : FS) {ds : List DocT} (h : ∀ d ∈ ds, TOk fs d)
    (hN : inpNames ds ≠ []) :
    ∀ j, parseLoop fs (j + 1) (docTxt ds) = parseLoop fs j (docTxt (passDs ds)) := by
  intro j
  have hamt : ¬ find_amount_of_inputs (docTxt ds) = 0 := by
    rw [amount_doc fs h]
    simpa using hN
  simp only [parseLoop, if_neg hamt, scan_doc fs ds h, splice_doc fs ds h]

theorem parseLoop_doc (fs : FS) :
    ∀ D : Nat, ∀ ds : List DocT, docDepth ds = D → (∀ d ∈ ds, TOk fs d) →
      (∃ r, parseLoop fs D (docTxt ds) = some (.ok r) ∧ ¬ hasInputOcc r)
      ∧ (∀ k, k < D → parseLoop fs k (docTxt ds) = none) := by
  intro D
  induction D using Nat.strong_induction_on with
  | _ D ih =>
    intro ds hD h
    by_cases hN : inpNames ds = []
    · have hD0 : D = 0 := by rw [← hD]; exact (docDepth_zero_iff ds).mpr hN
      subst hD0
      have hamt : find_amount_of_inputs (docTxt ds) = 0 := by
        rw [amount_doc fs h, hN]
        rfl
      refine ⟨⟨docTxt ds, parseLoop_of_amount_zero hamt 0, no_occ_of_amount_zero hamt⟩, ?_⟩
      intro k hk
      omega
    · have hpos : D ≠ 0 := fun h0 => hN ((docDepth_zero_iff ds).mp (h0 ▸ hD))
      obtain ⟨m, rfl⟩ : ∃ m, D = m + 1 := ⟨D - 1, by omega⟩
      have hamt : ¬ find_amount_of_inputs (docTxt ds) = 0 := by
        rw [amount_doc fs h]
        simpa using hN
      have hdp : docDepth (passDs ds) = m := by
        rw [docDepth_passDs ds hN, hD]
        omega
      have hihm := ih m (by omega) (passDs ds) hdp (TOk_passDs fs h)
      constructor
      · obtain ⟨⟨r, hr, hocc⟩, _⟩ := hihm
        exact ⟨r, by rw [parseLoop_step_doc fs h hN m]; exact hr, hocc⟩
      · intro k hk
        cases k with
        | zero => simp only [parseLoop, if_neg hamt]
        | succ j =>
          rw [parseLoop_step_doc fs h hN j]
          exact hihm.2 j (by omega)

/-! ### Auxiliary facts for individual claims -/

theorem firstInput_eq_none {s : Txt} (htm : tryMatch s = none)
    (ht : firstInput (s.drop 1) = none) : firstInput s = none := by
  cases s with
  | nil => rfl
  | cons c cs =>
    rw [firstInput_cons_none htm]
    simp only [List.drop_succ_cons, List.drop_zero] at ht
    rw [ht]
    rfl

theorem firstInput_none_of_no_bs : ∀ s : Txt, '\\' ∉ s → firstInput s = none := by
  intro s
  induction s with
  | nil => intro _; rfl
  | cons c cs ih =>
    intro h
    have hc : c ≠ '\\' := fun he => h (by simp [he])
    have htm : tryMatch (c :: cs) = none := by
      apply tryMatch_none_not_pre
      intro hpre
      have := List.isPrefixOf_iff_prefix.mp hpre
      rw [show inputTok = '\\' :: ['i', 'n', 'p', 'u', 't', lbrace] from rfl] at this
      exact hc (List.cons_prefix_cons.mp this).1.symm
    rw [firstInput_cons_none htm, ih (fun hm => h (by simp [hm]))]
    rfl

theorem spliceList_error_of_missing (fs : FS) :
    ∀ caps segs : List Txt, ∀ cap : Txt, cap ∈ caps → fs cap = none →
      spliceList fs caps segs = .error () := by
  intro caps
  induction caps with
  | nil => intro segs cap h; simp at h
  | cons c cs ih =>
    intro segs cap hmem hnone
    cases segs with
    | nil => rfl
    | cons s ss =>
      show spliceList fs (c :: cs) (s :: ss) = .error ()
      simp only [spliceList]
      cases hfc : fs c with
      | none => rfl
      | some d =>
        have hin : cap ∈ cs := by
          rcases List.mem_cons.mp hmem with he | hin
          · rw [he] at hnone
            rw [hnone] at hfc
            exact Option.noConfusion hfc
          · exact hin
        rw [ih ss cap hin hnone]

theorem cyc_loop : ∀ fuel : Nat,
    parseLoop fsCyc fuel "\\input\x7ba\x7d".data = none
    ∧ parseLoop fsCyc fuel "\\input\x7bb\x7d".data = none := by
  intro fuel
  induction fuel with
  | zero => exact ⟨by decide, by decide⟩
  | succ n ih =>
    constructor
    · have hstep : parseLoop fsCyc (n + 1) "\\input\x7ba\x7d".data
          = parseLoop fsCyc n "\\input\x7bb\x7d".data := by
        simp only [parseLoop]
        rw [if_neg (by decide)]
        rw [show spliceList fsCyc (find_inputs_in_file "\\input\x7ba\x7d".data).1
              (find_inputs_in_file "\\input\x7ba\x7d".data).2
            = .ok "\\input\x7bb\x7d".data from by decide]
      rw [hstep]
      exact ih.2
    · have hstep : parseLoop fsCyc (n + 1) "\\input\x7bb\x7d".data
          = parseLoop fsCyc n "\\input\x7ba\x7d".data := by
        simp only [parseLoop]
        rw [if_neg (by decide)]
        rw [show spliceList fsCyc (find_inputs_in_file "\\input\x7bb\x7d".data).1
              (find_inputs_in_file "\\input\x7bb\x7d".data).2
            = .ok "\\input\x7ba\x7d".data from by decide]
      rw [hstep]
      exact ih.1

/-! ### Claim theorems -/

/-- C9: for a cyclic `\input` graph (file `a` includes `b` and file `b`
includes `a`), the inlining loop never terminates: however much fuel (number
of scan-and-splice passes) it is given, `parse_file` on the main file `a` is
still running (`none`), and the buffer after any number of passes still
contains an `\input` occurrence (its input count is nonzero). -/
theorem c9_cycle_diverges : ∀ fuel : Nat,
    parse_file fsCyc fuel "a".data = none
    ∧ find_amount_of_inputs "\\input\x7ba\x7d".data ≠ 0
    ∧ find_amount_of_inputs "\\input\x7bb\x7d".data ≠ 0 := by
  intro fuel
  refine ⟨?_, by decide, by decide⟩
  show parseLoop fsCyc fuel "\\input\x7bb\x7d".data = none
  exact (cyc_loop fuel).2

/-- C6: a document text with zero same-line `\input{...}` occurrences is
returned unchanged by `parse_file`, whatever the file system and however
much fuel the loop is given (it terminates immediately). -/
theorem c6_no_inputs_unchanged (fs : FS) (path c : Txt)
    (hp : fs path = some c) (h : ¬ hasInputOcc c) :
    ∀ fuel, parse_file fs fuel path = some (.ok c) := by
  intro fuel
  unfold parse_file
  rw [hp]
  exact parseLoop_of_amount_zero (amount_zero_of_no_occ h) fuel

/-- Witness for C6 at a concrete input. -/
theorem c6_witness :
    fsW "plain.tex".data = some "Hello".data
    ∧ parse_file fsW 3 "plain.tex".data = some (.ok "Hello".data) := by
  refine ⟨by decide, ?_⟩
  exact c6_no_inputs_unchanged fsW "plain.tex".data "Hello".data (by decide)
    (fun hocc => firstInput_ne_none_of_occ hocc (by decide)) 3

/-- C8: an `\input{` token whose argument spans a line break (no `}` before
the newline, here with no further `\input` token anywhere) is not matched:
the scan reports zero captures, the whole text is one split segment, and
`parse_file` returns the buffer untouched. -/
theorem c8_linebreak_unmatched (fs : FS) (b1 b2 : Txt)
    (h1 : rbrace ∉ b1) (h2 : '\n' ∉ b1) (h3 : '\\' ∉ b1) (h4 : '\\' ∉ b2) :
    find_inputs_in_file (inputTok ++ b1 ++ '\n' :: b2)
      = ([], [inputTok ++ b1 ++ '\n' :: b2])
    ∧ ∀ fuel, parseLoop fs fuel (inputTok ++ b1 ++ '\n' :: b2)
        = some (.ok (inputTok ++ b1 ++ '\n' :: b2)) := by
  have htm : tryMatch (inputTok ++ b1 ++ '\n' :: b2) = none := by
    simp only [tryMatch, List.append_assoc]
    rw [if_pos (isPrefixOf_append_self inputTok (b1 ++ '\n' :: b2)),
      List.drop_left inputTok (b1 ++ '\n' :: b2)]
    rw [takeWhile_append_all ('\n' :: b2)
      (fun x hx => by simp [notNL]; intro he; exact h2 (he ▸ hx))]
    rw [List.takeWhile_cons]
    simp only [notNL, bne_self_eq_false, Bool.false_eq_true, if_false, List.append_nil]
    rw [(splitLast_none rbrace b1).mpr h1]
  have hdrop : (inputTok ++ b1 ++ '\n' :: b2).drop 1
      = ['i', 'n', 'p', 'u', 't', lbrace] ++ b1 ++ '\n' :: b2 := by
    simp [inputTok]
  have hfi : firstInput (inputTok ++ b1 ++ '\n' :: b2) = none := by
    apply firstInput_eq_none htm
    rw [hdrop]
    apply firstInput_none_of_no_bs
    intro hmem
    rcases List.mem_append.mp hmem with hm | hm
    · rcases List.mem_append.mp hm with hm2 | hm2
      · simp [lbrace] at hm2
      · exact h3 hm2
    · rcases List.mem_cons.mp hm with hm2 | hm2
      · exact absurd hm2 (by decide)
      · exact h4 hm2
  have hamt : find_amount_of_inputs (inputTok ++ b1 ++ '\n' :: b2) = 0 := by
    rw [find_amount_zero_iff]
    exact hfi
  constructor
  · rw [findInputs_eq, hfi]
  · intro fuel
    exact parseLoop_of_amount_zero hamt fuel

/-- Witness for C8 at a concrete input. -/
theorem c8_witness :
    find_inputs_in_file (inputTok ++ "arg".data ++ '\n' :: "more\x7d".data)
      = ([], [inputTok ++ "arg".data ++ '\n' :: "more\x7d".data])
    ∧ parseLoop fsW 2 (inputTok ++ "arg".data ++ '\n' :: "more\x7d".data)
        = some (.ok (inputTok ++ "arg".data ++ '\n' :: "more\x7d".data)) := by
  have h := c8_linebreak_unmatched fsW "arg".data "more\x7d".data
    (by decide) (by decide) (by decide) (by decide)
  exact ⟨h.1, h.2 2⟩

/-- C3 counterexample: the capture is NOT non-greedy.  For the line
`\input{a}b}` the scan captures `a}b` (up to the LAST `}` of the line),
not `a` as the claim states. -/
theorem c3_counterexample :
    (find_inputs_in_file "\\input\x7ba\x7db\x7d".data).1 ≠ ["a".data]
    ∧ (find_inputs_in_file "\\input\x7ba\x7db\x7d".data).1 = ["a\x7db".data] := by
  exact ⟨by decide, by decide⟩

/-- C3 (amended): the argument captured for an `\input{` token is the
GREEDY run of characters up to the LAST `}` of the line: for any
newline-free `b` (which may itself contain `}`) followed by a `}` and a
remainder whose current line has no further `}`, the scan captures exactly
`b`.  In particular for `\input{a}b}` the captured argument is `a}b`. -/
theorem c3_greedy_capture (b d : Txt) (h1 : '\n' ∉ b)
    (h2 : rbrace ∉ d.takeWhile notNL) :
    find_inputs_in_file (inputTok ++ b ++ rbrace :: d)
      = (b :: (find_inputs_in_file d).1, [] :: (find_inputs_in_file d).2) := by
  rw [findInputs_eq, firstInput_line h1 h2]

/-- Witness for C3's amended theorem: `\input{a}b}` captures `a}b`. -/
theorem c3_witness :
    find_inputs_in_file "\\input\x7ba\x7db\x7d".data
      = ("a\x7db".data :: (find_inputs_in_file ([] : Txt)).1,
         [] :: (find_inputs_in_file ([] : Txt)).2) := by
  have h := c3_greedy_capture "a\x7db".data [] (by decide) (by decide)
  exact h

/-- C2 counterexample: on the ONE-LINE document `A\input{x}B\input{y}C`
(with files `x` = `X` and `y` = `Y` present) the greedy scan produces the
single capture `x}B\input{y`, no file of that name exists, and the run
aborts with the assertion error instead of returning `AXBYC`. -/
theorem c2_counterexample :
    (find_inputs_in_file "A\\input\x7bx\x7dB\\input\x7by\x7dC".data).1
      = ["x\x7dB\\input\x7by".data]
    ∧ parse_file fsXY 5 "oneline".data = some (.error ())
    ∧ parse_file fsXY 5 "oneline".data ≠ some (.ok "AXBYC".data) := by
  refine ⟨by decide, by decide, by decide⟩

/-- C2 (amended): order preservation holds with the two directives on
separate lines: for the main document `A\input{x}` / `B\input{y}` / `C`
with `x` containing `X` and `y` containing `Y`, the captures are `x` then
`y` in left-to-right textual order and the result is exactly `AX\nBY\nC`;
on a single line the greedy scan instead merges the two directives into
one capture (see the counterexample). -/
theorem c2_order_split_lines :
    (find_inputs_in_file "A\\input\x7bx\x7d\nB\\input\x7by\x7d\nC".data).1
      = ["x".data, "y".data]
    ∧ parse_file fsXY 5 "twoline".data = some (.ok "AX\nBY\nC".data) := by
  refine ⟨by decide, by decide⟩

/-- C1 counterexample: a main document `\input\input{x}` whose scan
references only the leaf file `x` (content `{x}`, no `\input` occurrence),
i.e. an acyclic inclusion graph of maximum nesting depth 1 — yet one
scan-and-splice pass does not finish (splicing creates the new token
`\input{x}` across the splice boundary) and the loop needs 2 passes. -/
theorem c1_counterexample :
    (find_inputs_in_file "\\input\\input\x7bx\x7d".data).1 = ["x".data]
    ∧ (find_inputs_in_file "\x7bx\x7d".data).1 = []
    ∧ fsBrace "x".data = some "\x7bx\x7d".data
    ∧ parseLoop fsBrace 1 "\\input\\input\x7bx\x7d".data = none
    ∧ parseLoop fsBrace 2 "\\input\\input\x7bx\x7d".data = some (.ok "\x7bx\x7d".data) := by
  refine ⟨by decide, by decide, by decide, by decide, by decide⟩

/-- C1 (amended): for a LINE-STRUCTURED main document — every line is
either plain text without an `\input{` token or exactly an `\input{name}`
directive, and recursively so for every included file (the well-formedness
`TOk`), with an acyclic inclusion structure of maximum nesting depth `D =
docDepth ds` — `parse_file` terminates after exactly `D` scan-and-splice
passes (it succeeds with fuel `D` and is still running with any smaller
fuel), and the returned buffer contains zero `\input{...}` occurrences.
Without the line-structure restriction the pass count can exceed the
depth (see the counterexample). -/
theorem c1_depth_passes (fs : FS) (path : Txt) (ds : List DocT)
    (hp : fs path = some (docTxt ds)) (h : ∀ d ∈ ds, TOk fs d) :
    (∃ r, parse_file fs (docDepth ds) path = some (.ok r) ∧ ¬ hasInputOcc r)
    ∧ ∀ k, k < docDepth ds → parse_file fs k path = none := by
  unfold parse_file
  rw [hp]
  exact parseLoop_doc fs (docDepth ds) ds rfl h

/-- Witness for C1's amended theorem: the two-line document
`Hello` / `\input{x}` has depth 1; `parse_file` succeeds with fuel 1 and is
still running with fuel 0. -/
theorem c1_witness :
    docDepth dsW = 1
    ∧ (∃ r, parse_file fsW 1 "main.tex".data = some (.ok r) ∧ ¬ hasInputOcc r)
    ∧ parse_file fsW 0 "main.tex".data = none := by
  have htok : ∀ d ∈ dsW, TOk fsW d := by
    intro d hd
    rcases List.mem_cons.mp hd with he | hd2
    · rw [he]
      exact TOk.plain _ (by decide) (by decide)
    · rcases List.mem_cons.mp hd2 with he | hd3
      · rw [he]
        refine TOk.inp _ _ (by decide) (by decide) (by decide) (by simp) ?_
        intro e he2
        rcases List.mem_cons.mp he2 with he3 | he4
        · rw [he3]
          exact TOk.plain _ (by decide) (by decide)
        · simp at he4
      · simp at hd3
  have h := c1_depth_passes fsW "main.tex".data dsW (by decide) htok
  have hd : docDepth dsW = 1 := by decide
  rw [hd] at h
  exact ⟨hd, h.1, h.2 0 (by decide)⟩

/-- C4: if any `\input` directive of the main document names a path missing
from the file system, the run aborts with the assertion error: `mainRun`
returns `some (.error ())` — in particular no output `.tex` content is
produced and no graphics copy is performed (both only happen in the
`.ok` payload, after `parse_file` has succeeded). -/
theorem c4_missing_input_aborts (fs : FS) (project : List Txt)
    (path content cap : Txt) (hp : fs path = some content)
    (hmem : cap ∈ (find_inputs_in_file content).1) (hmiss : fs cap = none) :
    ∀ fuel, mainRun fs project (fuel + 1) path = some (.error ()) := by
  intro fuel
  have hamt : ¬ find_amount_of_inputs content = 0 := by
    unfold find_amount_of_inputs
    intro h0
    rw [List.length_eq_zero] at h0
    rw [h0] at hmem
    simp at hmem
  have hsp : spliceList fs (find_inputs_in_file content).1
      (find_inputs_in_file content).2 = .error () :=
    spliceList_error_of_missing fs _ _ cap hmem hmiss
  unfold mainRun parse_file
  rw [hp]
  simp only [parseLoop, if_neg hamt, hsp]

/-- Witness for C4: `main.tex` references `missing`, which does not exist;
the run aborts. -/
theorem c4_witness :
    fsMiss "main.tex".data = some "\\input\x7bmissing\x7d".data
    ∧ "missing".data ∈ (find_inputs_in_file "\\input\x7bmissing\x7d".data).1
    ∧ fsMiss "missing".data = none
    ∧ mainRun fsMiss [] 1 "main.tex".data = some (.error ()) := by
  refine ⟨by decide, by decide, by decide, ?_⟩
  exact c4_missing_input_aborts fsMiss [] "main.tex".data
    "\\input\x7bmissing\x7d".data "missing".data (by decide) (by decide) (by decide) 0

/-! ### Lines: splitting and joining -/

theorem splitLines_ne_nil : ∀ s : Txt, splitLines s ≠ [] := by
  intro s
  cases s with
  | nil => simp [splitLines]
  | cons c cs =>
    simp only [splitLines]
    by_cases hc : c = '\n'
    · simp [hc]
    · simp only [if_neg hc]
      cases splitLines cs with
      | nil => simp
      | cons l ls => simp

theorem mem_splitLines_no_nl : ∀ s l : Txt, l ∈ splitLines s → '\n' ∉ l := by
  intro s
  induction s with
  | nil =>
    intro l hl
    simp [splitLines] at hl
    simp [hl]
  | cons c cs ih =>
    intro l hl
    simp only [splitLines] at hl
    by_cases hc : c = '\n'
    · rw [if_pos hc] at hl
      rcases List.mem_cons.mp hl with he | hin
      · simp [he]
      · exact ih l hin
    · rw [if_neg hc] at hl
      cases hsp : splitLines cs with
      | nil => exact absurd hsp (splitLines_ne_nil cs)
      | cons m ms =>
        rw [hsp] at hl
        rcases List.mem_cons.mp hl with he | hin
        · subst he
          intro hmem
          rcases List.mem_cons.mp hmem with he2 | hin2
          · exact hc he2.symm
          · exact ih m (by simp [hsp]) hin2
        · exact ih l (by simp [hsp, hin])

theorem joinLines_splitLines : ∀ s : Txt, joinLines (splitLines s) = s := by
  intro s
  induction s with
  | nil => rfl
  | cons c cs ih =>
    simp only [splitLines]
    by_cases hc : c = '\n'
    · rw [if_pos hc, joinLines_cons (splitLines_ne_nil cs), ih, hc]
      rfl
    · rw [if_neg hc]
      cases hsp : splitLines cs with
      | nil => exact absurd hsp (splitLines_ne_nil cs)
      | cons m ms =>
        rw [hsp] at ih
        cases ms with
        | nil =>
          show joinLines [c :: m] = c :: cs
          show c :: m = c :: cs
          rw [show joinLines [m] = m from rfl] at ih
          rw [ih]
        | cons m2 ms2 =>
          rw [joinLines_cons (show m2 :: ms2 ≠ [] by simp)] at ih
          rw [joinLines_cons (show m2 :: ms2 ≠ [] by simp)]
          rw [List.cons_append, ih]

theorem splitLines_single : ∀ l : Txt, '\n' ∉ l → splitLines l = [l] := by
  intro l
  induction l with
  | nil => intro _; rfl
  | cons c cs ih =>
    intro h
    have hc : ¬ c = '\n' := fun he => h (by simp [he])
    simp only [splitLines, if_neg hc]
    rw [ih (fun hm => h (by simp [hm]))]

theorem splitLines_append_nl (rest : Txt) : ∀ l : Txt, '\n' ∉ l →
    splitLines (l ++ '\n' :: rest) = l :: splitLines rest := by
  intro l
  induction l with
  | nil =>
    intro _
    simp only [List.nil_append, splitLines]
    simp
  | cons c cs ih =>
    intro h
    have hc : ¬ c = '\n' := fun he => h (by simp [he])
    simp only [List.cons_append, splitLines, if_neg hc]
    rw [List.append_eq, ih (fun hm => h (by simp [hm]))]

theorem splitLines_joinLines : ∀ ls : List Txt, ls ≠ [] → (∀ l ∈ ls, '\n' ∉ l) →
    splitLines (joinLines ls) = ls := by
  intro ls
  induction ls with
  | nil => intro h _; exact absurd rfl h
  | cons l ls ih =>
    intro _ h
    cases ls with
    | nil => exact splitLines_single l (h l (by simp))
    | cons m ms =>
      rw [joinLines_cons (show m :: ms ≠ [] by simp)]
      rw [splitLines_append_nl (joinLines (m :: ms)) l (h l (by simp))]
      rw [ih (by simp) (fun x hx => h x (by simp [hx]))]

/-! ### The graphics rewrite -/

theorem splitFirstTok_pre_none (tok : Txt) (hne : tok ≠ []) :
    ∀ s pre a, splitFirstTok tok s = some (pre, a) → splitFirstTok tok pre = none := by
  intro s
  induction s with
  | nil =>
    intro pre a h
    simp only [splitFirstTok] at h
    by_cases hp : tok.isPrefixOf ([] : Txt)
    · exact absurd (List.prefix_nil.mp (List.isPrefixOf_iff_prefix.mp hp)) hne
    · rw [if_neg hp] at h
      exact Option.noConfusion h
  | cons c cs ih =>
    intro pre a h
    simp only [splitFirstTok] at h
    by_cases hp : tok.isPrefixOf (c :: cs)
    · rw [if_pos hp] at h
      simp only [Option.some_inj, Prod.mk.injEq] at h
      rw [← h.1]
      cases tok with
      | nil => exact absurd rfl hne
      | cons t ts => rfl
    · rw [if_neg hp] at h
      cases h2 : splitFirstTok tok cs with
      | none => rw [h2] at h; exact Option.noConfusion h
      | some q =>
        rw [h2] at h
        cases q with
        | mk p' a' =>
          simp only [Option.some_inj, Prod.mk.injEq] at h
          rw [← h.1]
          apply splitFirstTok_none_cons.mpr
          refine ⟨?_, ih p' a' h2⟩
          intro hpre2
          apply hp
          have h1 : tok <+: (c :: p') := List.isPrefixOf_iff_prefix.mp hpre2
          have h3 : (c :: p') <+: (c :: cs) := by
            have := splitFirstTok_some tok cs p' a' h2
            rw [this]
            exact ⟨tok ++ a', by simp⟩
          exact List.isPrefixOf_iff_prefix.mpr (h1.trans h3)

theorem lineGraphicsSplit_sound {l pre size region t : Txt}
    (h : lineGraphicsSplit l = some (pre, size, region, t)) :
    l = pre ++ graphicsTok ++ size ++ lbrace :: (region ++ rbrace :: t)
    ∧ rbrace ∉ t ∧ lbrace ∉ region ∧ splitFirstTok graphicsTok pre = none := by
  unfold lineGraphicsSplit at h
  split at h
  · exact Option.noConfusion h
  · next pre' after h1 =>
    split at h
    · exact Option.noConfusion h
    · next beforeQ t' h2 =>
      split at h
      · exact Option.noConfusion h
      · next size' region' h3 =>
        simp only [Option.some_inj, Prod.mk.injEq] at h
        obtain ⟨hpre, hsize, hregion, ht⟩ := h
        subst hpre; subst hsize; subst hregion; subst ht
        obtain he1 := splitFirstTok_some graphicsTok l pre' after h1
        obtain ⟨he2, hnb2⟩ := splitLast_some rbrace after beforeQ t' h2
        obtain ⟨he3, hnb3⟩ := splitLast_some lbrace beforeQ size' region' h3
        refine ⟨?_, hnb2, hnb3, splitFirstTok_pre_none graphicsTok (by decide) l pre' after h1⟩
        rw [he1, he2, he3]
        simp

theorem flattenTok_no_slash {r : Txt} : '/' ∉ flattenTok r := by
  unfold flattenTok
  cases h : splitLast '/' r with
  | none => exact (splitLast_none '/' r).mp h
  | some q =>
    cases q with
    | mk b a => exact (splitLast_some '/' r b a h).2

theorem flattenTok_mem {r : Txt} : ∀ x, x ∈ flattenTok r → x ∈ r := by
  intro x
  unfold flattenTok
  cases h : splitLast '/' r with
  | none => exact fun hx => hx
  | some q =>
    cases q with
    | mk b a =>
      intro hx
      rw [(splitLast_some '/' r b a h).1]
      simp [hx]

theorem flattenTok_id {r : Txt} (h : '/' ∉ r) : flattenTok r = r := by
  unfold flattenTok
  rw [(splitLast_none '/' r).mpr h]

theorem lineGraphicsSplit_eq {pre size region t : Txt}
    (hfirst : splitFirstTok graphicsTok pre = none)
    (hnb : rbrace ∉ t) (hnl : lbrace ∉ region) :
    lineGraphicsSplit (pre ++ graphicsTok ++ size ++ lbrace :: (region ++ rbrace :: t))
      = some (pre, size, region, t) := by
  have h1 : splitFirstTok graphicsTok
        (pre ++ graphicsTok ++ (size ++ lbrace :: (region ++ rbrace :: t)))
      = some (pre, size ++ lbrace :: (region ++ rbrace :: t)) :=
    splitFirstTok_append graphicsTok graphicsTok_noOverlap (by decide) pre _ hfirst
  have h2 : splitLast rbrace (size ++ lbrace :: (region ++ rbrace :: t))
      = some (size ++ lbrace :: region, t) := by
    have h := splitLast_eq rbrace (size ++ lbrace :: region) t hnb
    rw [show (size ++ lbrace :: region) ++ rbrace :: t
        = size ++ lbrace :: (region ++ rbrace :: t) by simp] at h
    exact h
  have h3 : splitLast lbrace (size ++ lbrace :: region) = some (size, region) :=
    splitLast_eq lbrace size region hnl
  rw [show pre ++ graphicsTok ++ size ++ lbrace :: (region ++ rbrace :: t)
      = pre ++ graphicsTok ++ (size ++ lbrace :: (region ++ rbrace :: t)) by simp]
  simp only [lineGraphicsSplit, h1, h2, h3]

theorem rewriteLine_eq {pre size region t : Txt}
    (hfirst : splitFirstTok graphicsTok pre = none)
    (hnb : rbrace ∉ t) (hnl : lbrace ∉ region) :
    rewriteLine (pre ++ graphicsTok ++ size ++ lbrace :: (region ++ rbrace :: t))
      = pre ++ graphicsTok ++ size ++ lbrace :: (flattenTok region ++ rbrace :: t) := by
  unfold rewriteLine
  rw [lineGraphicsSplit_eq hfirst hnb hnl]

theorem rewriteLine_idem : ∀ l : Txt, rewriteLine (rewriteLine l) = rewriteLine l := by
  intro l
  cases hs : lineGraphicsSplit l with
  | none =>
    show rewriteLine (rewriteLine l) = rewriteLine l
    have hl : rewriteLine l = l := by unfold rewriteLine; rw [hs]
    rw [hl, hl]
  | some q =>
    obtain ⟨pre, size, region, t⟩ := q
    obtain ⟨he, hnb, hnl, hfirst⟩ := lineGraphicsSplit_sound hs
    have hrw : rewriteLine l
        = pre ++ graphicsTok ++ size ++ lbrace :: (flattenTok region ++ rbrace :: t) := by
      unfold rewriteLine
      rw [hs]
    rw [hrw]
    rw [rewriteLine_eq hfirst hnb (fun hm => hnl (flattenTok_mem _ hm))]
    rw [flattenTok_id flattenTok_no_slash]

theorem rewriteLine_no_nl {l : Txt} (h : '\n' ∉ l) : '\n' ∉ rewriteLine l := by
  cases hs : lineGraphicsSplit l with
  | none =>
    have hl : rewriteLine l = l := by unfold rewriteLine; rw [hs]
    rw [hl]
    exact h
  | some q =>
    obtain ⟨pre, size, region, t⟩ := q
    obtain ⟨he, _, _, _⟩ := lineGraphicsSplit_sound hs
    have hrw : rewriteLine l
        = pre ++ graphicsTok ++ size ++ lbrace :: (flattenTok region ++ rbrace :: t) := by
      unfold rewriteLine
      rw [hs]
    rw [hrw]
    rw [he] at h
    intro hmem
    rcases List.mem_append.mp hmem with hA | hZ
    · exact h (List.mem_append.mpr (Or.inl hA))
    · rcases List.mem_cons.mp hZ with hb | hZ2
      · exact h (List.mem_append.mpr (Or.inr (List.mem_cons.mpr (Or.inl hb))))
      · rcases List.mem_append.mp hZ2 with hX | hY
        · exact h (List.mem_append.mpr (Or.inr (List.mem_cons.mpr (Or.inr
            (List.mem_append.mpr (Or.inl (flattenTok_mem _ hX)))))))
        · exact h (List.mem_append.mpr (Or.inr (List.mem_cons.mpr (Or.inr
            (List.mem_append.mpr (Or.inr hY))))))

/-- C10: `remove_path_graphics` is idempotent on every input string: a
rewritten path token contains no remaining directory separator, so a second
pass rewrites nothing new. -/
theorem c10_remove_path_graphics_idem (s : Txt) :
    remove_path_graphics (remove_path_graphics s) = remove_path_graphics s := by
  have hlines : splitLines (remove_path_graphics s) = (splitLines s).map rewriteLine := by
    unfold remove_path_graphics
    apply splitLines_joinLines
    · intro habs
      exact splitLines_ne_nil s (List.map_eq_nil_iff.mp habs)
    · intro l hl
      obtain ⟨l0, hl0, he⟩ := List.mem_map.mp hl
      rw [← he]
      exact rewriteLine_no_nl (mem_splitLines_no_nl s l0 hl0)
  show joinLines ((splitLines (remove_path_graphics s)).map rewriteLine)
    = remove_path_graphics s
  rw [hlines, List.map_map]
  have hmapeq : (splitLines s).map (rewriteLine ∘ rewriteLine)
      = (splitLines s).map rewriteLine :=
    List.map_congr_left (fun l _ => rewriteLine_idem l)
  rw [hmapeq]
  rfl

/-- C5: the rewrite of `remove_path_graphics` is a pure text substitution,
independent of any file system: for a line consisting of anything without a
`\includegraphics` directive, the directive with its verbatim option group
`size` (which may contain anything line-local, braces included), a path
`dir ++ / ++ base`, and a trailing rest, the path token is replaced by its
final component `base` while the macro name, the option group and the
surrounding text are preserved verbatim.  (Side conditions delimit the
greedy match: the final `}` is the last of the line and the `{` the last
before it.) -/
theorem c5_graphics_flatten (pre size dir base post : Txt)
    (hfirst : splitFirstTok graphicsTok pre = none)
    (hpost : rbrace ∉ post) (hdir : lbrace ∉ dir) (hbase : lbrace ∉ base)
    (hslash : '/' ∉ base)
    (hn1 : '\n' ∉ pre) (hn2 : '\n' ∉ size) (hn3 : '\n' ∉ dir)
    (hn4 : '\n' ∉ base) (hn5 : '\n' ∉ post) :
    remove_path_graphics
        (pre ++ graphicsTok ++ size ++ lbrace :: ((dir ++ '/' :: base) ++ rbrace :: post))
      = pre ++ graphicsTok ++ size ++ lbrace :: (base ++ rbrace :: post) := by
  have hnl : '\n' ∉ pre ++ graphicsTok ++ size
      ++ lbrace :: ((dir ++ '/' :: base) ++ rbrace :: post) := by
    intro hmem
    rcases List.mem_append.mp hmem with hA | hZ
    · rcases List.mem_append.mp hA with hB | hsz
      · rcases List.mem_append.mp hB with hp | hg
        · exact hn1 hp
        · exact (by decide : '\n' ∉ graphicsTok) hg
      · exact hn2 hsz
    · rcases List.mem_cons.mp hZ with hb | hZ2
      · exact absurd hb (by decide)
      · rcases List.mem_append.mp hZ2 with hX | hY
        · rcases List.mem_append.mp hX with hd | hsb
          · exact hn3 hd
          · rcases List.mem_cons.mp hsb with hx | hx
            · exact absurd hx (by decide)
            · exact hn4 hx
        · rcases List.mem_cons.mp hY with hx | hx
          · exact absurd hx (by decide)
          · exact hn5 hx
  unfold remove_path_graphics
  rw [splitLines_single _ hnl, List.map_cons, List.map_nil]
  have hreg : lbrace ∉ dir ++ '/' :: base := by
    intro hmem
    rcases List.mem_append.mp hmem with hd | hsb
    · exact hdir hd
    · rcases List.mem_cons.mp hsb with hx | hx
      · exact absurd hx (by decide)
      · exact hbase hx
  rw [rewriteLine_eq hfirst hpost hreg]
  have hflat : flattenTok (dir ++ '/' :: base) = base := by
    unfold flattenTok
    rw [splitLast_eq '/' dir base hslash]
  rw [hflat]
  rfl

/-- Witness for C5: `\includegraphics[width=1cm]{figures/plot}` becomes
`\includegraphics[width=1cm]{plot}`. -/
theorem c5_witness :
    remove_path_graphics
        (([] : Txt) ++ graphicsTok ++ "[width=1cm]".data
          ++ lbrace :: (("figures".data ++ '/' :: "plot".data) ++ rbrace :: ([] : Txt)))
      = ([] : Txt) ++ graphicsTok ++ "[width=1cm]".data
          ++ lbrace :: ("plot".data ++ rbrace :: ([] : Txt)) :=
  c5_graphics_flatten [] "[width=1cm]".data "figures".data "plot".data []
    (by decide) (by decide) (by decide) (by decide) (by decide)
    (by decide) (by decide) (by decide) (by decide) (by decide)

theorem flatMap_filter_of_nil {f : Txt → List (Txt × Txt)} {tok : Txt}
    (hf : f tok = []) :
    ∀ l : List Txt, l.flatMap f = (l.filter (fun t => !(t == tok))).flatMap f := by
  intro l
  induction l with
  | nil => rfl
  | cons a as ih =>
    by_cases ha : a = tok
    · subst ha
      simp only [List.flatMap_cons, hf, List.nil_append, List.filter_cons,
        beq_self_eq_true, Bool.not_true]
      exact ih
    · have hbeq : (a == tok) = false := beq_eq_false_iff_ne.mpr ha
      simp only [List.flatMap_cons, List.filter_cons, hbeq, Bool.not_false, if_true,
        List.flatMap_cons]
      rw [ih]

/-- C7: a captured `\includegraphics` token whose resolution against the
project folder yields zero files is best-effort skipped: it contributes no
copy operation (the copy list is the same as if the token were absent from
the scan), no error is raised, and the run continues — `mainRun` still
succeeds and still emits the rewritten (flattened) text. -/
theorem c7_dangling_graphics (fs : FS) (project : List Txt)
    (path c tok : Txt) (fuel : Nat)
    (hp : parse_file fs fuel path = some (.ok c))
    (hzero : resolveGraphics project tok = []) :
    mainRun fs project fuel path
      = some (.ok (remove_path_graphics c, extract_graphics_files project c))
    ∧ extract_graphics_files project c
        = ((find_graphics_in_file c).filter (fun t => !(t == tok))).flatMap
            (fun t => (resolveGraphics project t).map (fun p => (p, fileName p))) := by
  constructor
  · unfold mainRun
    rw [hp]
  · unfold extract_graphics_files
    exact flatMap_filter_of_nil (by rw [hzero]; rfl) (find_graphics_in_file c)

/-- Witness for C7: the document references `figures/plot`, the project
contains only `other.png`, so nothing matches: no copy is performed, the
run succeeds, and the rewritten text still contains the flattened
reference. -/
theorem c7_witness :
    mainRun fsG ["other.png".data] 1 "g.tex".data
      = some (.ok ("\\includegraphics\x7bplot\x7d".data, []))
    ∧ "figures/plot".data ∈ find_graphics_in_file "\\includegraphics\x7bfigures/plot\x7d".data
    ∧ resolveGraphics ["other.png".data] "figures/plot".data = [] := by
  have h := c7_dangling_graphics fsG ["other.png".data] "g.tex".data
    "\\includegraphics\x7bfigures/plot\x7d".data "figures/plot".data 1
    (by decide) (by decide)
  refine ⟨?_, by decide, by decide⟩
  rw [h.1]
  decide
